import Mathlib

/-!
Verification of the segmented log store of `recallvault` (`src/logger.py`).

Python strings are embedded as `List Char`; the module's line scanner,
serializer, segment naming and file-system effects are translated function
by function from the source.  Python exceptions are modelled with `Except`.
-/

namespace RecallVault

/-- Embedded Python strings. -/
abbrev Str := List Char

/-- Python exception kinds that the code in `src/logger.py` can raise:
`ValueError` (from tuple unpacking and `datetime.strptime`/`int`),
`IndexError` (from list indexing), `AttributeError` (from calling a missing
attribute such as `list.items`), and the module's own `SplitError`. -/
inductive PyErr where
  | valueError
  | indexError
  | attributeError
  | splitError
  deriving DecidableEq, Repr

instance {ε α : Type} [DecidableEq ε] [DecidableEq α] : DecidableEq (Except ε α) := fun x y =>
  match x, y with
  | .ok a, .ok b =>
    if h : a = b then isTrue (h ▸ rfl) else isFalse (fun he => h (Except.ok.inj he))
  | .error a, .error b =>
    if h : a = b then isTrue (h ▸ rfl) else isFalse (fun he => h (Except.error.inj he))
  | .ok _, .error _ => isFalse (fun he => Except.noConfusion he)
  | .error _, .ok _ => isFalse (fun he => Except.noConfusion he)

/-- Decimal digit character, as produced by Python decimal formatting. -/
def digitChar : Nat → Char
  | 0 => '0'
  | 1 => '1'
  | 2 => '2'
  | 3 => '3'
  | 4 => '4'
  | 5 => '5'
  | 6 => '6'
  | 7 => '7'
  | 8 => '8'
  | 9 => '9'
  | _ => '?'

/-- Numeric value of a digit character. -/
def digitVal (c : Char) : Nat := c.toNat - 48

/-- A `datetime.datetime` value at second precision, which is the precision
the log format ever serializes. -/
structure DateTime where
  year : Nat
  month : Nat
  day : Nat
  hour : Nat
  minute : Nat
  second : Nat
  deriving DecidableEq, Repr

/-- Field ranges of Python `datetime` values as far as the textual format is
concerned (real `datetime` additionally validates the day against the
calendar; those values are a subset of these). -/
def ValidDT (t : DateTime) : Prop :=
  1 ≤ t.year ∧ t.year ≤ 9999 ∧ 1 ≤ t.month ∧ t.month ≤ 12 ∧ 1 ≤ t.day ∧ t.day ≤ 31 ∧
    t.hour ≤ 23 ∧ t.minute ≤ 59 ∧ t.second ≤ 59

instance : DecidablePred ValidDT := fun t => by unfold ValidDT; infer_instance

/-- Two-digit zero-padded decimal rendering (exact for numbers below 100). -/
def pad2 (n : Nat) : Str := [digitChar (n / 10 % 10), digitChar (n % 10)]

/-- Four-digit zero-padded decimal rendering (exact for numbers below 10000). -/
def pad4 (n : Nat) : Str :=
  [digitChar (n / 1000 % 10), digitChar (n / 100 % 10), digitChar (n / 10 % 10),
    digitChar (n % 10)]

/-- Python `str(datetime)` for a microsecond-free value:
`YYYY-MM-DD HH:MM:SS`. -/
def dtToString (t : DateTime) : Str :=
  pad4 t.year ++ '-' :: pad2 t.month ++ '-' :: pad2 t.day ++ ' ' :: pad2 t.hour ++
    ':' :: pad2 t.minute ++ ':' :: pad2 t.second

/-- Python `datetime.strptime(s, "%Y-%m-%d %H:%M:%S")`, modelled on the
zero-padded strings this repository writes: the shape must be exactly
`dddd-dd-dd dd:dd:dd` with in-range fields, otherwise `ValueError`. -/
def strptime (s : Str) : Except PyErr DateTime :=
  match s with
  | [y1, y2, y3, y4, '-', m1, m2, '-', d1, d2, ' ', h1, h2, ':', n1, n2, ':', s1, s2] =>
    if (y1.isDigit && y2.isDigit && y3.isDigit && y4.isDigit && m1.isDigit && m2.isDigit &&
        d1.isDigit && d2.isDigit && h1.isDigit && h2.isDigit && n1.isDigit && n2.isDigit &&
        s1.isDigit && s2.isDigit) = true then
      let y := 1000 * digitVal y1 + 100 * digitVal y2 + 10 * digitVal y3 + digitVal y4
      let mo := 10 * digitVal m1 + digitVal m2
      let d := 10 * digitVal d1 + digitVal d2
      let h := 10 * digitVal h1 + digitVal h2
      let mi := 10 * digitVal n1 + digitVal n2
      let sec := 10 * digitVal s1 + digitVal s2
      if 1 ≤ y ∧ 1 ≤ mo ∧ mo ≤ 12 ∧ 1 ≤ d ∧ d ≤ 31 ∧ h ≤ 23 ∧ mi ≤ 59 ∧ sec ≤ 59 then
        .ok ⟨y, mo, d, h, mi, sec⟩
      else .error .valueError
    else .error .valueError
  | _ => .error .valueError

/-- The whitespace characters stripped by Python `str.strip()` (ASCII range,
which covers everything this log format can produce). -/
def isPySpace (c : Char) : Bool :=
  c = ' ' || c = '\t' || c = '\n' || c = '\r' || c = '\x0b' || c = '\x0c'

/-- Python `str.strip()`. -/
def pyStrip (s : Str) : Str :=
  ((s.dropWhile isPySpace).reverse.dropWhile isPySpace).reverse

/-- Helper for `splitCh`: accumulates the current piece in reverse. -/
def splitChAux (sep : Char) : Str → Str → List Str
  | [], acc => [acc.reverse]
  | c :: cs, acc =>
    if c = sep then acc.reverse :: splitChAux sep cs [] else splitChAux sep cs (c :: acc)

/-- Python `s.split(sep)` for a single-character separator. -/
def splitCh (sep : Char) (s : Str) : List Str := splitChAux sep s []

/-- Python `sep.join(pieces)` for a single-character separator. -/
def joinSep : List Str → Char → Str
  | [], _ => []
  | [x], _ => x
  | x :: y :: ys, c => x ++ c :: joinSep (y :: ys) c

/-- Helper for `splitLines`. -/
def splitLinesAux : Str → Str → List Str
  | [], acc => if acc = [] then [] else [acc.reverse]
  | c :: cs, acc =>
    if c = '\n' then (acc.reverse ++ ['\n']) :: splitLinesAux cs []
    else splitLinesAux cs (c :: acc)

/-- Iterating a Python text file line by line: pieces keep their trailing
newline, and a final fragment without a newline is still a line. -/
def splitLines (s : Str) : List Str := splitLinesAux s []

/-- Helper for `splitSep`: leftmost, non-overlapping scan for the
three-character separator of `" - ".split`.  The first argument counts
separator characters still to be skipped. -/
def splitSepGo : Nat → Str → Str → List Str
  | _ + 1, [], acc => [acc.reverse]
  | skip + 1, _ :: cs, acc => splitSepGo skip cs acc
  | 0, [], acc => [acc.reverse]
  | 0, c :: cs, acc =>
    if c = ' ' ∧ cs.take 2 = ['-', ' '] then acc.reverse :: splitSepGo 2 cs []
    else splitSepGo 0 cs (c :: acc)

/-- Python `s.split(" - ")`, as used by `LogEntry.from_string`. -/
def splitSep (s : Str) : List Str := splitSepGo 0 s []

/-- Whether a string contains the separator `" - "` at a position where a
leftmost scan would split it. -/
def hasDashSep : Str → Bool
  | [] => false
  | c :: cs => if c = ' ' ∧ cs.take 2 = ['-', ' '] then true else hasDashSep cs

/-- The separator written and recognized by the codec: twenty dashes. -/
def sepLine : Str := List.replicate 20 '-'

/-- A log entry: `LogEntry` from `src/logger.py`, with `date` and `log`. -/
structure LogEntry where
  date : DateTime
  log : Str
  deriving DecidableEq, Repr

/-- `LogEntry.from_string`: `date, log = log.split(" - ")` (a `ValueError`
unless the split has exactly two parts), then
`datetime.strptime(date[1:-1], "%Y-%m-%d %H:%M:%S")`. -/
def from_string (line : Str) : Except PyErr LogEntry :=
  match splitSep line with
  | [d, l] =>
    match strptime ((d.drop 1).dropLast) with
    | .ok dt => .ok ⟨dt, l⟩
    | .error e => .error e
  | _ => .error .valueError

/-- `LogEntry.to_string`: the text `[date] - log`. -/
def to_string (e : LogEntry) : Str :=
  '[' :: dtToString e.date ++ ']' :: ' ' :: '-' :: ' ' :: e.log

/-- The bytes `LogReader.write_log` appends to the file for one entry:
`to_string`, a newline, and the separator line. -/
def write_log_text (e : LogEntry) : Str :=
  to_string e ++ '\n' :: (sepLine ++ ['\n'])

/-- Serialization of a whole batch: what the `write_logs` loop appends to a
fresh file. -/
def serializeBatch (b : List LogEntry) : Str := (b.map write_log_text).flatten

/-- State of the `read_logs` line scanner: the entries appended so far
(`logs`), the Python variable `curr_log` (`none` models its initial value
`""`, which is falsy), and `inside_log`. -/
structure ScanState where
  logs : List LogEntry
  curr : Option LogEntry
  inside : Bool
  deriving DecidableEq, Repr

/-- Python `line.startswith("[")`. -/
def startsBracket : Str → Bool
  | '[' :: _ => true
  | _ => false

/-- One iteration of the `for line in file` loop of `LogReader.read_logs`. -/
def scanLine (st : ScanState) (line : Str) : Except PyErr ScanState :=
  if pyStrip line = sepLine then
    .ok ⟨st.logs ++ st.curr.toList, st.curr, false⟩
  else if startsBracket line = true ∧ st.inside = false then
    match from_string line with
    | .ok e => .ok ⟨st.logs, some e, true⟩
    | .error err => .error err
  else if st.inside = true then
    match st.curr with
    | some e => .ok ⟨st.logs, some ⟨e.date, e.log ++ line⟩, true⟩
    | none => .error .attributeError
  else .ok st

/-- The whole scanner loop; a raised exception aborts it. -/
def scanLines : ScanState → List Str → Except PyErr ScanState
  | st, [] => .ok st
  | st, l :: ls =>
    match scanLine st l with
    | .ok st2 => scanLines st2 ls
    | .error e => .error e

/-- Deserialization from a list of lines. -/
def parseLines (ls : List Str) : Except PyErr (List LogEntry) :=
  (scanLines ⟨[], none, false⟩ ls).map ScanState.logs

/-- Deserialization of a file body, as `LogReader.read_logs` performs it on
an existing file. -/
def parseText (s : Str) : Except PyErr (List LogEntry) := parseLines (splitLines s)

/-- The project directory: an association list from file name to content
(insertion order models directory contents for `os.listdir`). -/
abbrev FS := List (Str × Str)

/-- `os.path.exists`-style lookup of a file's content. -/
def fsLookup : FS → Str → Option Str
  | [], _ => none
  | (k, v) :: rest, n => if k = n then some v else fsLookup rest n

/-- Python `open(path, "a")` followed by writes: appends to an existing
file, creates the file otherwise. -/
def appendFile (fs : FS) (name data : Str) : FS :=
  if (fsLookup fs name).isSome then
    fs.map fun p => if p.1 = name then (p.1, p.2 ++ data) else p
  else fs ++ [(name, data)]

/-- `LogReader.read_logs`: empty batch when the name is falsy or the file
does not exist, otherwise parse the file's content. -/
def read_logs (fs : FS) (path : Option Str) : Except PyErr (List LogEntry) :=
  match path with
  | none => .ok []
  | some p =>
    if p = [] then .ok []
    else
      match fsLookup fs p with
      | none => .ok []
      | some content => parseText content

/-- `LogReader.write_log`: append one entry's text to the file at `path`. -/
def write_log (fs : FS) (path : Str) (e : LogEntry) : FS :=
  appendFile fs path (write_log_text e)

/-- The `for log in logs: self.write_log(path, log)` loop. -/
def writeAll (fs : FS) (path : Str) (logs : List LogEntry) : FS :=
  logs.foldl (fun acc e => write_log acc path e) fs

/-- Python string comparison (code-point lexicographic), for `sorted`. -/
def lexLe : Str → Str → Bool
  | [], _ => true
  | _ :: _, [] => false
  | a :: as, b :: bs =>
    if a.toNat < b.toNat then true
    else if b.toNat < a.toNat then false
    else lexLe as bs

/-- `LogSegmentation.last_log_file`: the lexicographically greatest file
name starting with `"log"`, or `None`. -/
def last_log_file (fs : FS) : Option Str :=
  match (fs.map Prod.fst).filter (fun n => ("log".toList).isPrefixOf n) with
  | [] => none
  | x :: xs => some (xs.foldl (fun m n => if lexLe m n then n else m) x)

/-- `LogSegmentation` state: the capacity and the cached current segment
name (`none` models `None`). -/
structure LogSegmentation where
  log_limit : Nat
  current_log_file : Option Str
  deriving DecidableEq, Repr

/-- Fuel-driven decimal rendering helper. -/
def natToStrAux : Nat → Nat → Str
  | 0, _ => []
  | fuel + 1, n =>
    if n < 10 then [digitChar n]
    else natToStrAux fuel (n / 10) ++ [digitChar (n % 10)]

/-- Python decimal formatting of a non-negative integer (`f"{number}"`). -/
def natToStr (n : Nat) : Str := natToStrAux (n + 1) n

/-- Value of a string of decimal digits. -/
def digitsVal (s : Str) : Nat := s.foldl (fun a c => 10 * a + digitVal c) 0

/-- Python `int(s)`, modelled on the non-negative decimal strings this
module feeds it: digits parse, anything else raises `ValueError`. -/
def pyInt (s : Str) : Except PyErr Nat :=
  if s ≠ [] ∧ s.all Char.isDigit then .ok (digitsVal s) else .error .valueError

/-- `LogSegmentation.generate_file_name`:
`int(current.split("_")[1].split(".")[0]) + 1` when a current file exists,
else `1`; returns `log_{number}.txt` and caches it as current. -/
def generate_file_name (seg : LogSegmentation) : Except PyErr (Str × LogSegmentation) := do
  let number ← match seg.current_log_file with
    | some cur => do
      let part ← match splitCh '_' cur with
        | _ :: x :: _ => Except.ok x
        | _ => Except.error PyErr.indexError
      let k ← pyInt (splitCh '.' part).headI
      Except.ok (k + 1)
    | none => Except.ok 1
  let name := "log_".toList ++ natToStr number ++ ".txt".toList
  Except.ok (name, { seg with current_log_file := some name })

/-- `LogReader.write_logs`: read the active segment, rotate to a fresh
segment name when its entry count has reached the capacity, otherwise
append to the active segment (creating it when absent). -/
def write_logs (seg : LogSegmentation) (fs : FS) (logs : List LogEntry) :
    Except PyErr (LogSegmentation × FS) := do
  let lastF := match seg.current_log_file with
    | some c => some c
    | none => last_log_file fs
  let curr_logs ← match lastF with
    | some f => read_logs fs (some f)
    | none => Except.ok []
  if seg.log_limit ≤ curr_logs.length then do
    let (newName, seg2) ← generate_file_name seg
    Except.ok (seg2, writeAll fs newName logs)
  else
    match lastF with
    | none => do
      let (name1, seg2) ← generate_file_name seg
      Except.ok (seg2, writeAll fs name1 logs)
    | some f => Except.ok (seg, writeAll fs f logs)

/-- The call `list(self.logs.items())` in `LogVector.split`: `self.logs` is
a Python `list`, which has no `items` attribute, so reaching this raises
`AttributeError`. -/
def logsItems (_ : List LogEntry) : Except PyErr Empty := .error .attributeError

/-- `LogVector.split`: raises `SplitError` when the vector has at most `n`
entries, and otherwise executes `list(self.logs.items())`, which raises. -/
def LogVector.split (v : List LogEntry) (n : Nat) :
    Except PyErr (List LogEntry × List LogEntry) :=
  if v.length ≤ n then .error .splitError
  else (logsItems v).bind fun e => e.elim

/-- The entry `read_logs` reconstructs for a written entry: the header-line
parse keeps the trailing newline, so the body grows by one `'\n'`. -/
def readEntry (e : LogEntry) : LogEntry := ⟨e.date, e.log ++ ['\n']⟩

/-- Entries whose serialization the scanner can read back: a valid
timestamp, a non-empty body whose first line is free of the `" - "`
separator, and no body line that strips to the twenty-dash separator. -/
def GoodEntry (e : LogEntry) : Prop :=
  ValidDT e.date ∧ e.log ≠ [] ∧
    hasDashSep ((splitCh '\n' e.log).headI ++ ['\n']) = false ∧
    ∀ l ∈ splitCh '\n' e.log, pyStrip (l ++ ['\n']) ≠ sepLine

instance : DecidablePred GoodEntry := fun e => by unfold GoodEntry; infer_instance

/-- The header text before the body on an entry's first line. -/
def headerPre (e : LogEntry) : Str := '[' :: dtToString e.date ++ [']', ' ', '-', ' ']

/-- The file lines one written entry contributes. -/
def linesOfEntry (e : LogEntry) : List Str :=
  (headerPre e ++ (splitCh '\n' e.log).headI ++ ['\n']) ::
    ((splitCh '\n' e.log).tail.map (fun l => l ++ ['\n']) ++ [sepLine ++ ['\n']])

/-- Lines each terminated by a newline. -/
def joinNl (ls : List Str) : Str := (ls.map (fun l => l ++ ['\n'])).flatten

/-- The scanner's `curr_log` after a batch: unchanged for an empty batch,
else the read-back of the batch's last entry. -/
def lastCurr (c0 : Option LogEntry) (b : List LogEntry) : Option LogEntry :=
  match b.getLast? with
  | none => c0
  | some e => some (readEntry e)

/-- The canonical segment file name `log_{n}.txt`. -/
def logName (n : Nat) : Str := "log_".toList ++ natToStr n ++ ".txt".toList

/-- Remove the final separator line (twenty dashes and a newline) from a
serialized text. -/
def dropFinalSepLine (t : Str) : Str := t.take (t.length - 21)

/-- Concrete fixture timestamp. -/
def dt0 : DateTime := ⟨2024, 1, 15, 9, 30, 0⟩

/-- Concrete fixture entry with body `"a"`. -/
def entry0 : LogEntry := ⟨dt0, ['a']⟩

/-- Concrete fixture entry with body `"b"`. -/
def entry1 : LogEntry := ⟨⟨2024, 1, 16, 10, 0, 0⟩, ['b']⟩

/-- Concrete fixture entry whose body's first line contains `" - "`. -/
def entryDash : LogEntry := ⟨dt0, "a - b".toList⟩

section Theorems

theorem digitChar_isDigit {n : Nat} (h : n < 10) : (digitChar n).isDigit = true := by
  interval_cases n <;> decide

theorem digitVal_digitChar {n : Nat} (h : n < 10) : digitVal (digitChar n) = n := by
  interval_cases n <;> decide

theorem ne_of_isDigit {c d : Char} (h : c.isDigit = true) (hd : d.isDigit = false) :
    c ≠ d := by
  intro he; rw [he, hd] at h; cases h

theorem strptime_dtToString {t : DateTime} (h : ValidDT t) :
    strptime (dtToString t) = .ok t := by
  obtain ⟨h1, h2, h3, h4, h5, h6, h7, h8, h9⟩ := h
  have hy3 : t.year / 1000 % 10 < 10 := Nat.mod_lt _ (by norm_num)
  have hy2 : t.year / 100 % 10 < 10 := Nat.mod_lt _ (by norm_num)
  have hy1 : t.year / 10 % 10 < 10 := Nat.mod_lt _ (by norm_num)
  have hy0 : t.year % 10 < 10 := Nat.mod_lt _ (by norm_num)
  have hmo1 : t.month / 10 % 10 < 10 := Nat.mod_lt _ (by norm_num)
  have hmo0 : t.month % 10 < 10 := Nat.mod_lt _ (by norm_num)
  have hd1 : t.day / 10 % 10 < 10 := Nat.mod_lt _ (by norm_num)
  have hd0 : t.day % 10 < 10 := Nat.mod_lt _ (by norm_num)
  have hh1 : t.hour / 10 % 10 < 10 := Nat.mod_lt _ (by norm_num)
  have hh0 : t.hour % 10 < 10 := Nat.mod_lt _ (by norm_num)
  have hmi1 : t.minute / 10 % 10 < 10 := Nat.mod_lt _ (by norm_num)
  have hmi0 : t.minute % 10 < 10 := Nat.mod_lt _ (by norm_num)
  have hs1 : t.second / 10 % 10 < 10 := Nat.mod_lt _ (by norm_num)
  have hs0 : t.second % 10 < 10 := Nat.mod_lt _ (by norm_num)
  simp only [dtToString, pad4, pad2, List.cons_append, List.nil_append]
  rw [strptime]
  rw [if_pos (by
    simp only [Bool.and_eq_true]
    refine ⟨⟨⟨⟨⟨⟨⟨⟨⟨⟨⟨⟨⟨?_, ?_⟩, ?_⟩, ?_⟩, ?_⟩, ?_⟩, ?_⟩, ?_⟩, ?_⟩, ?_⟩, ?_⟩, ?_⟩, ?_⟩, ?_⟩ <;>
      exact digitChar_isDigit (by assumption))]
  have e1 : ∀ a : Nat, a ≤ 9999 →
      1000 * (a / 1000 % 10) + 100 * (a / 100 % 10) + 10 * (a / 10 % 10) + a % 10 = a := by
    intro a ha; omega
  have e2 : ∀ a : Nat, a ≤ 99 → 10 * (a / 10 % 10) + a % 10 = a := by
    intro a ha; omega
  simp only [digitVal_digitChar hy3, digitVal_digitChar hy2, digitVal_digitChar hy1,
    digitVal_digitChar hy0, digitVal_digitChar hmo1, digitVal_digitChar hmo0,
    digitVal_digitChar hd1, digitVal_digitChar hd0, digitVal_digitChar hh1,
    digitVal_digitChar hh0, digitVal_digitChar hmi1, digitVal_digitChar hmi0,
    digitVal_digitChar hs1, digitVal_digitChar hs0]
  rw [e1 t.year h2, e2 t.month (by omega), e2 t.day (by omega), e2 t.hour (by omega),
    e2 t.minute (by omega), e2 t.second (by omega)]
  rw [if_pos (by omega)]

theorem splitSepGo_of_not_hasDashSep {s : Str} (h : hasDashSep s = false) :
    ∀ acc, splitSepGo 0 s acc = [acc.reverse ++ s] := by
  induction s with
  | nil => intro acc; simp [splitSepGo]
  | cons c cs ih =>
    intro acc
    rw [hasDashSep] at h
    by_cases hc : c = ' ' ∧ cs.take 2 = ['-', ' ']
    · rw [if_pos hc] at h; cases h
    · rw [if_neg hc] at h
      rw [splitSepGo, if_neg hc, ih h]
      simp

theorem hasDashSep_cons_eq_false {c : Char} {cs : Str} (h : hasDashSep (c :: cs) = false) :
    ¬(c = ' ' ∧ cs.take 2 = ['-', ' ']) ∧ hasDashSep cs = false := by
  rw [hasDashSep] at h
  by_cases hc : c = ' ' ∧ cs.take 2 = ['-', ' ']
  · rw [if_pos hc] at h; cases h
  · rw [if_neg hc] at h; exact ⟨hc, h⟩

theorem splitSepGo_append {a : Str} (h : hasDashSep (a ++ [' ']) = false) :
    ∀ (b : Str) (acc : Str),
      splitSepGo 0 (a ++ ' ' :: '-' :: ' ' :: b) acc = (acc.reverse ++ a) :: splitSepGo 0 b [] := by
  induction a with
  | nil =>
    intro b acc
    rw [List.nil_append, splitSepGo, if_pos (by simp)]
    simp [splitSepGo]
  | cons c a' ih =>
    intro b acc
    obtain ⟨h1, h2⟩ := hasDashSep_cons_eq_false (by simpa using h)
    have hcond : ¬(c = ' ' ∧ (a' ++ ' ' :: '-' :: ' ' :: b).take 2 = ['-', ' ']) := by
      rintro ⟨rfl, htake⟩
      match a', htake with
      | [], htake => simp at htake
      | [x], htake =>
        simp at htake
        exact h1 ⟨rfl, by simp [htake]⟩
      | x :: y :: a'', htake =>
        simp at htake
        exact h1 ⟨rfl, by simp [htake.1, htake.2]⟩
    rw [List.cons_append, splitSepGo, if_neg hcond, ih h2]
    simp

theorem splitLinesAux_append {a : Str} (h : '\n' ∉ a) :
    ∀ (b : Str) (acc : Str),
      splitLinesAux (a ++ '\n' :: b) acc = (acc.reverse ++ a ++ ['\n']) :: splitLinesAux b [] := by
  induction a with
  | nil => intro b acc; simp [splitLinesAux]
  | cons c a' ih =>
    intro b acc
    have hc : c ≠ '\n' := fun hc => h (hc ▸ List.mem_cons_self c a')
    have h' : '\n' ∉ a' := fun hm => h (List.mem_cons_of_mem c hm)
    rw [List.cons_append, splitLinesAux, if_neg hc, ih h']
    simp

theorem splitChAux_append {sep : Char} {a : Str} (h : ∀ c ∈ a, c ≠ sep) :
    ∀ (b : Str) (acc : Str),
      splitChAux sep (a ++ sep :: b) acc = (acc.reverse ++ a) :: splitChAux sep b [] := by
  induction a with
  | nil => intro b acc; simp [splitChAux]
  | cons c a' ih =>
    intro b acc
    have hc : c ≠ sep := h c (List.mem_cons_self c a')
    have h' : ∀ x ∈ a', x ≠ sep := fun x hx => h x (List.mem_cons_of_mem c hx)
    rw [List.cons_append, splitChAux, if_neg hc, ih h']
    simp

theorem splitChAux_no_sep {sep : Char} {a : Str} (h : ∀ c ∈ a, c ≠ sep) :
    ∀ acc, splitChAux sep a acc = [acc.reverse ++ a] := by
  induction a with
  | nil => intro acc; simp [splitChAux]
  | cons c a' ih =>
    intro acc
    have hc : c ≠ sep := h c (List.mem_cons_self c a')
    have h' : ∀ x ∈ a', x ≠ sep := fun x hx => h x (List.mem_cons_of_mem c hx)
    rw [splitChAux, if_neg hc, ih h']
    simp

theorem splitChAux_ne_nil {sep : Char} : ∀ (s acc : Str), splitChAux sep s acc ≠ [] := by
  intro s
  induction s with
  | nil => intro acc; simp [splitChAux]
  | cons c cs ih =>
    intro acc
    rw [splitChAux]
    by_cases hc : c = sep
    · rw [if_pos hc]; simp
    · rw [if_neg hc]; exact ih _

theorem mem_splitChAux_not_sep {sep : Char} :
    ∀ (s acc : Str), (∀ c ∈ acc, c ≠ sep) →
      ∀ p ∈ splitChAux sep s acc, ∀ c ∈ p, c ≠ sep := by
  intro s
  induction s with
  | nil =>
    intro acc hacc p hp
    simp [splitChAux] at hp
    subst hp
    intro c hc
    exact hacc c (by simpa using hc)
  | cons d cs ih =>
    intro acc hacc p hp
    rw [splitChAux] at hp
    by_cases hd : d = sep
    · rw [if_pos hd] at hp
      rcases List.mem_cons.mp hp with hp | hp
      · subst hp; intro c hc; exact hacc c (by simpa using hc)
      · exact ih [] (by simp) p hp
    · rw [if_neg hd] at hp
      exact ih (d :: acc) (by
        intro c hc
        rcases List.mem_cons.mp hc with rfl | hc
        · exact hd
        · exact hacc c hc) p hp

theorem joinSep_splitChAux {sep : Char} :
    ∀ (s acc : Str), joinSep (splitChAux sep s acc) sep = acc.reverse ++ s := by
  intro s
  induction s with
  | nil => intro acc; simp [splitChAux, joinSep]
  | cons c cs ih =>
    intro acc
    rw [splitChAux]
    by_cases hc : c = sep
    · rw [if_pos hc]
      have hne : splitChAux sep cs [] ≠ [] := splitChAux_ne_nil cs []
      have : joinSep (acc.reverse :: splitChAux sep cs []) sep =
          acc.reverse ++ sep :: joinSep (splitChAux sep cs []) sep := by
        match hx : splitChAux sep cs [], hne with
        | y :: ys, _ => rw [joinSep]
      rw [this, ih []]
      simp [hc]
    · rw [if_neg hc, ih (c :: acc)]
      simp

theorem digitChar_ne {k : Nat} (hk : k < 10) {c : Char} (hc : c.isDigit = false) :
    digitChar k ≠ c :=
  ne_of_isDigit (digitChar_isDigit hk) hc

theorem digitsVal_append_singleton (s : Str) (c : Char) :
    digitsVal (s ++ [c]) = 10 * digitsVal s + digitVal c := by
  simp [digitsVal, List.foldl_append]

theorem natToStrAux_spec :
    ∀ fuel n : Nat, n < fuel →
      natToStrAux fuel n ≠ [] ∧ (natToStrAux fuel n).all Char.isDigit = true ∧
        digitsVal (natToStrAux fuel n) = n := by
  intro fuel
  induction fuel with
  | zero => intro n hn; omega
  | succ fuel ih =>
    intro n hn
    rw [natToStrAux]
    by_cases h10 : n < 10
    · rw [if_pos h10]
      refine ⟨by simp, by simp [digitChar_isDigit h10], ?_⟩
      simp [digitsVal, digitVal_digitChar h10]
    · rw [if_neg h10]
      have hrec : n / 10 < fuel := by omega
      obtain ⟨h1, h2, h3⟩ := ih (n / 10) hrec
      refine ⟨by simp, ?_, ?_⟩
      · rw [List.all_append, h2]
        simp [digitChar_isDigit (Nat.mod_lt n (by norm_num))]
      · rw [digitsVal_append_singleton, h3, digitVal_digitChar (Nat.mod_lt n (by norm_num))]
        omega

theorem natToStr_spec (n : Nat) :
    natToStr n ≠ [] ∧ (natToStr n).all Char.isDigit = true ∧ digitsVal (natToStr n) = n :=
  natToStrAux_spec (n + 1) n (Nat.lt_succ_self n)

theorem pyInt_natToStr (n : Nat) : pyInt (natToStr n) = .ok n := by
  obtain ⟨h1, h2, h3⟩ := natToStr_spec n
  rw [pyInt, if_pos ⟨h1, h2⟩, h3]

theorem natToStr_inj {a b : Nat} (h : natToStr a = natToStr b) : a = b := by
  have ha := (natToStr_spec a).2.2
  have hb := (natToStr_spec b).2.2
  rw [h, hb] at ha
  omega

theorem natToStr_mem_isDigit {n : Nat} {c : Char} (h : c ∈ natToStr n) :
    c.isDigit = true := by
  have h2 := (natToStr_spec n).2.1
  exact List.all_eq_true.mp h2 c h

theorem logName_inj {a b : Nat} (h : logName a = logName b) : a = b := by
  have h2 : natToStr a ++ ".txt".toList = natToStr b ++ ".txt".toList := by
    have h3 := h
    simp only [logName, List.append_assoc] at h3
    exact List.append_cancel_left h3
  exact natToStr_inj (List.append_cancel_right h2)

theorem logName_eq (n : Nat) :
    logName n = 'l' :: 'o' :: 'g' :: '_' :: (natToStr n ++ ['.', 't', 'x', 't']) := rfl

theorem splitCh_logName (n : Nat) :
    splitCh '_' (logName n) = [['l', 'o', 'g'], natToStr n ++ ['.', 't', 'x', 't']] := by
  have hshape : logName n =
      ['l', 'o', 'g'] ++ '_' :: (natToStr n ++ ['.', 't', 'x', 't']) := rfl
  rw [hshape, splitCh, splitChAux_append (by intro c hc h; subst h; revert hc; decide)]
  rw [splitChAux_no_sep (by
    intro c hc
    rcases List.mem_append.mp hc with hc | hc
    · exact ne_of_isDigit (natToStr_mem_isDigit hc) (by decide)
    · intro h; subst h; revert hc; decide)]
  simp

theorem splitCh_dot_num (n : Nat) :
    splitCh '.' (natToStr n ++ ['.', 't', 'x', 't']) = [natToStr n, ['t', 'x', 't']] := by
  have hshape : natToStr n ++ ['.', 't', 'x', 't'] =
      natToStr n ++ '.' :: ['t', 'x', 't'] := rfl
  rw [hshape, splitCh,
    splitChAux_append (fun c hc => ne_of_isDigit (natToStr_mem_isDigit hc) (by decide))]
  rw [splitChAux_no_sep (by intro c hc h; subst h; revert hc; decide)]
  simp

theorem generate_file_name_none (lim : Nat) :
    generate_file_name ⟨lim, none⟩ = .ok (logName 1, ⟨lim, some (logName 1)⟩) := by
  simp [generate_file_name, logName, Bind.bind, Except.bind]

theorem generate_file_name_logName (lim n : Nat) :
    generate_file_name ⟨lim, some (logName n)⟩ =
      .ok (logName (n + 1), ⟨lim, some (logName (n + 1))⟩) := by
  rw [generate_file_name]
  simp only [splitCh_logName]
  simp [splitCh_dot_num, pyInt_natToStr, Bind.bind, Except.bind, logName]

theorem dropWhile_append_singleton (c : Char) (hc : isPySpace c = false) :
    ∀ l : Str, ∃ t, (l ++ [c]).dropWhile isPySpace = t ++ [c] := by
  intro l
  induction l with
  | nil => exact ⟨[], by simp [List.dropWhile_cons, hc]⟩
  | cons a l' ih =>
    by_cases ha : isPySpace a
    · obtain ⟨t, ht⟩ := ih
      exact ⟨t, by rw [List.cons_append, List.dropWhile_cons, if_pos ha, ht]⟩
    · exact ⟨a :: l', by
        rw [List.cons_append, List.dropWhile_cons, if_neg ha]⟩

theorem pyStrip_bracket (r : Str) : pyStrip ('[' :: r) ≠ sepLine := by
  rw [pyStrip]
  rw [List.dropWhile_cons, if_neg (by decide)]
  rw [List.reverse_cons]
  obtain ⟨t, ht⟩ := dropWhile_append_singleton '[' (by decide) r.reverse
  rw [ht, List.reverse_append]
  intro h
  rw [show sepLine = '-' :: List.replicate 19 '-' from rfl] at h
  simp at h

theorem pyStrip_sepNl : pyStrip (sepLine ++ ['\n']) = sepLine := by decide

theorem length_sepNl : (sepLine ++ ['\n']).length = 21 := by decide

theorem hds_step_ne {c : Char} (h : c ≠ ' ') (cs : Str) :
    hasDashSep (c :: cs) = hasDashSep cs := by
  rw [hasDashSep, if_neg]
  rintro ⟨h1, _⟩
  exact h h1

theorem hds_step_digit {k : Nat} (hk : k < 10) (cs : Str) :
    hasDashSep (digitChar k :: cs) = hasDashSep cs :=
  hds_step_ne (digitChar_ne hk (by decide)) cs

theorem hds_step_space_digit {k : Nat} (hk : k < 10) (cs : Str) :
    hasDashSep (' ' :: digitChar k :: cs) = hasDashSep (digitChar k :: cs) := by
  rw [hasDashSep, if_neg]
  rintro ⟨_, h2⟩
  rw [List.take_succ_cons] at h2
  simp only [List.cons.injEq] at h2
  exact digitChar_ne hk (by decide) h2.1

theorem hasDashSep_header (t : DateTime) :
    hasDashSep (('[' :: dtToString t ++ [']']) ++ [' ']) = false := by
  have hm : ∀ a : Nat, a % 10 < 10 := fun a => Nat.mod_lt _ (by norm_num)
  simp only [dtToString, pad4, pad2, List.cons_append, List.nil_append, List.append_assoc]
  rw [hds_step_ne (by decide), hds_step_digit (hm _), hds_step_digit (hm _),
    hds_step_digit (hm _), hds_step_digit (hm _), hds_step_ne (by decide),
    hds_step_digit (hm _), hds_step_digit (hm _), hds_step_ne (by decide),
    hds_step_digit (hm _), hds_step_digit (hm _), hds_step_space_digit (hm _),
    hds_step_digit (hm _), hds_step_digit (hm _), hds_step_ne (by decide),
    hds_step_digit (hm _), hds_step_digit (hm _), hds_step_ne (by decide),
    hds_step_digit (hm _), hds_step_digit (hm _), hds_step_ne (by decide)]
  decide

theorem nl_not_mem_pad2 (n : Nat) : '\n' ∉ pad2 n := by
  intro h
  simp only [pad2, List.mem_cons, List.not_mem_nil, or_false] at h
  rcases h with h | h <;>
    exact digitChar_ne (Nat.mod_lt _ (by norm_num)) (by decide) h.symm

theorem nl_not_mem_pad4 (n : Nat) : '\n' ∉ pad4 n := by
  intro h
  simp only [pad4, List.mem_cons, List.not_mem_nil, or_false] at h
  rcases h with h | h | h | h <;>
    exact digitChar_ne (Nat.mod_lt _ (by norm_num)) (by decide) h.symm

theorem nl_not_mem_dtToString (t : DateTime) : '\n' ∉ dtToString t := by
  intro h
  rw [dtToString] at h
  simp only [List.mem_append, List.mem_cons] at h
  repeat' (first
    | exact nl_not_mem_pad4 _ h
    | exact nl_not_mem_pad2 _ h
    | exact absurd h (by decide)
    | rcases h with h | h)

theorem nl_not_mem_headerPre (e : LogEntry) : '\n' ∉ headerPre e := by
  intro h
  rw [headerPre] at h
  rcases List.mem_append.mp h with h | h
  · rcases List.mem_cons.mp h with h | h
    · exact absurd h (by decide)
    · exact nl_not_mem_dtToString _ h
  · revert h; decide

theorem nl_not_mem_splitCh {s p : Str} (hp : p ∈ splitCh '\n' s) : '\n' ∉ p := by
  intro h
  exact mem_splitChAux_not_sep s [] (by simp) p hp '\n' h rfl

theorem splitCh_ne_nil (sep : Char) (s : Str) : splitCh sep s ≠ [] :=
  splitChAux_ne_nil s []

theorem joinSep_splitCh (sep : Char) (s : Str) : joinSep (splitCh sep s) sep = s := by
  have h := @joinSep_splitChAux sep s []
  simpa using h

theorem joinNl_cons (l : Str) (ls : List Str) :
    joinNl (l :: ls) = (l ++ ['\n']) ++ joinNl ls := by
  simp [joinNl]

theorem joinNl_eq_joinSep (ls : List Str) (h : ls ≠ []) :
    joinNl ls = joinSep ls '\n' ++ ['\n'] := by
  induction ls with
  | nil => cases h rfl
  | cons x ls ih =>
    cases ls with
    | nil => simp [joinNl, joinSep]
    | cons y ys =>
      rw [joinNl_cons, ih (by simp), joinSep]
      simp [List.append_assoc]

theorem joinNl_splitCh (s : Str) : joinNl (splitCh '\n' s) = s ++ ['\n'] := by
  rw [joinNl_eq_joinSep _ (splitCh_ne_nil _ _), joinSep_splitCh]

theorem to_string_eq (e : LogEntry) : to_string e = headerPre e ++ e.log := by
  simp [to_string, headerPre]

theorem splitSep_header (t : DateTime) (rest : Str) (hrest : hasDashSep rest = false) :
    splitSep (('[' :: dtToString t ++ [']']) ++ ' ' :: '-' :: ' ' :: rest) =
      ['[' :: dtToString t ++ [']'], rest] := by
  rw [splitSep, splitSepGo_append (hasDashSep_header t), splitSepGo_of_not_hasDashSep hrest]
  simp

theorem from_string_header {t : DateTime} (hv : ValidDT t) (rest : Str)
    (hrest : hasDashSep rest = false) :
    from_string (('[' :: dtToString t ++ [']']) ++ ' ' :: '-' :: ' ' :: rest) =
      .ok ⟨t, rest⟩ := by
  have h1 := splitSep_header t rest hrest
  unfold from_string
  rw [h1]
  simp [List.dropLast_concat, strptime_dtToString hv]

theorem scanLine_sep (st : ScanState) :
    scanLine st (sepLine ++ ['\n']) = .ok ⟨st.logs ++ st.curr.toList, st.curr, false⟩ := by
  unfold scanLine
  rw [if_pos pyStrip_sepNl]

theorem scanLine_header (e : LogEntry) (hv : ValidDT e.date) (rest : Str)
    (hrest : hasDashSep rest = false) (logs : List LogEntry) (c0 : Option LogEntry) :
    scanLine ⟨logs, c0, false⟩ (headerPre e ++ rest) = .ok ⟨logs, some ⟨e.date, rest⟩, true⟩ := by
  have hshape : headerPre e ++ rest =
      ('[' :: dtToString e.date ++ [']']) ++ ' ' :: '-' :: ' ' :: rest := by
    simp [headerPre]
  have hshape2 : headerPre e ++ rest =
      '[' :: (dtToString e.date ++ ([']', ' ', '-', ' '] ++ rest)) := by
    simp [headerPre]
  unfold scanLine
  rw [if_neg (by rw [hshape2]; exact pyStrip_bracket _)]
  rw [if_pos ⟨by rw [hshape2]; rfl, rfl⟩]
  rw [hshape, from_string_header hv rest hrest]

theorem scanLine_cont (logs : List LogEntry) (d : DateTime) (lg : Str) (l : Str)
    (h : pyStrip l ≠ sepLine) :
    scanLine ⟨logs, some ⟨d, lg⟩, true⟩ l = .ok ⟨logs, some ⟨d, lg ++ l⟩, true⟩ := by
  unfold scanLine
  rw [if_neg h, if_neg (by rintro ⟨_, h2⟩; cases h2), if_pos rfl]

theorem scanLine_skip (st : ScanState) (hin : st.inside = false) (l : Str)
    (h1 : pyStrip l ≠ sepLine) (h2 : startsBracket l = false) :
    scanLine st l = .ok st := by
  unfold scanLine
  rw [if_neg h1, if_neg (by rintro ⟨hb, _⟩; rw [h2] at hb; cases hb),
    if_neg (by rw [hin]; rintro h; cases h)]

theorem scanLine_header_error (st : ScanState) (hin : st.inside = false) (l : Str)
    (h1 : pyStrip l ≠ sepLine) (h2 : startsBracket l = true) {err : PyErr}
    (h3 : from_string l = .error err) :
    scanLine st l = .error err := by
  unfold scanLine
  rw [if_neg h1, if_pos ⟨h2, hin⟩, h3]

theorem scanLines_ok_cons {st st2 : ScanState} {l : Str} (h : scanLine st l = .ok st2)
    (ls : List Str) : scanLines st (l :: ls) = scanLines st2 ls := by
  simp only [scanLines, h]

theorem scanLines_error_cons {st : ScanState} {l : Str} {err : PyErr}
    (h : scanLine st l = .error err) (ls : List Str) :
    scanLines st (l :: ls) = .error err := by
  simp only [scanLines, h]

theorem scanLines_cont :
    ∀ ls : List Str, (∀ l ∈ ls, pyStrip (l ++ ['\n']) ≠ sepLine) →
      ∀ (logs : List LogEntry) (d : DateTime) (lg : Str) (rest : List Str),
        scanLines ⟨logs, some ⟨d, lg⟩, true⟩ (ls.map (fun l => l ++ ['\n']) ++ rest) =
          scanLines ⟨logs, some ⟨d, lg ++ joinNl ls⟩, true⟩ rest := by
  intro ls
  induction ls with
  | nil =>
    intro _ logs d lg rest
    simp [joinNl]
  | cons x ls ih =>
    intro hls logs d lg rest
    rw [List.map_cons, List.cons_append,
      scanLines_ok_cons (scanLine_cont logs d lg (x ++ ['\n']) (hls x (by simp))) _,
      ih (fun l hl => hls l (by simp [hl])) logs d (lg ++ (x ++ ['\n'])) rest,
      joinNl_cons]
    simp [List.append_assoc]

theorem splitLinesAux_joinSep :
    ∀ ls : List Str, ls ≠ [] → (∀ l ∈ ls, '\n' ∉ l) → ∀ rest : Str,
      splitLinesAux (joinSep ls '\n' ++ '\n' :: rest) [] =
        ls.map (fun l => l ++ ['\n']) ++ splitLinesAux rest [] := by
  intro ls
  induction ls with
  | nil => intro h; cases h rfl
  | cons x ls ih =>
    intro _ hnl rest
    cases ls with
    | nil =>
      have h1 : joinSep [x] '\n' = x := rfl
      rw [h1, splitLinesAux_append (hnl x (by simp))]
      simp
    | cons y ys =>
      have h1 : joinSep (x :: y :: ys) '\n' ++ '\n' :: rest =
          x ++ '\n' :: (joinSep (y :: ys) '\n' ++ '\n' :: rest) := by
        have h2 : joinSep (x :: y :: ys) '\n' = x ++ '\n' :: joinSep (y :: ys) '\n' := rfl
        rw [h2]
        simp [List.append_assoc]
      rw [h1, splitLinesAux_append (hnl x (by simp)),
        ih (by simp) (fun l hl => hnl l (by simp [hl])) rest]
      simp

theorem splitLinesAux_hdr (pre : Str) (hpre : '\n' ∉ pre) (ls : List Str) (hne : ls ≠ [])
    (hnl : ∀ l ∈ ls, '\n' ∉ l) (rest : Str) :
    splitLinesAux ((pre ++ joinSep ls '\n') ++ '\n' :: rest) [] =
      ((pre ++ ls.headI) ++ ['\n']) ::
        (ls.tail.map (fun l => l ++ ['\n']) ++ splitLinesAux rest []) := by
  cases ls with
  | nil => cases hne rfl
  | cons x ls2 =>
    have hpx : '\n' ∉ pre ++ x := by
      intro h
      rcases List.mem_append.mp h with h | h
      · exact hpre h
      · exact hnl x (by simp) h
    cases ls2 with
    | nil =>
      have h1 : joinSep [x] '\n' = x := rfl
      rw [h1, splitLinesAux_append hpx]
      simp
    | cons y ys =>
      have hsh : (pre ++ joinSep (x :: y :: ys) '\n') ++ '\n' :: rest =
          (pre ++ x) ++ '\n' :: (joinSep (y :: ys) '\n' ++ '\n' :: rest) := by
        have h2 : joinSep (x :: y :: ys) '\n' = x ++ '\n' :: joinSep (y :: ys) '\n' := rfl
        rw [h2]
        simp [List.append_assoc]
      rw [hsh, splitLinesAux_append hpx,
        splitLinesAux_joinSep (y :: ys) (by simp) (fun l hl => hnl l (by simp [hl])) rest]
      simp

theorem splitLinesAux_entry (e : LogEntry) (rest : Str) :
    splitLinesAux (write_log_text e ++ rest) [] =
      linesOfEntry e ++ splitLinesAux rest [] := by
  have hbl : splitCh '\n' e.log ≠ [] := splitCh_ne_nil _ _
  have hnl : ∀ l ∈ splitCh '\n' e.log, '\n' ∉ l := fun l hl => nl_not_mem_splitCh hl
  have hlog : e.log = joinSep (splitCh '\n' e.log) '\n' := (joinSep_splitCh _ _).symm
  have hsh : write_log_text e ++ rest =
      (headerPre e ++ joinSep (splitCh '\n' e.log) '\n') ++
        '\n' :: (sepLine ++ '\n' :: rest) := by
    unfold write_log_text
    rw [to_string_eq]
    conv_lhs => rw [hlog]
    simp [List.append_assoc]
  rw [hsh, splitLinesAux_hdr (headerPre e) (nl_not_mem_headerPre e) _ hbl hnl _,
    splitLinesAux_append (by decide : '\n' ∉ sepLine)]
  unfold linesOfEntry
  simp [List.append_assoc]

theorem scanLines_entry (e : LogEntry) (he : GoodEntry e) (logs : List LogEntry)
    (c0 : Option LogEntry) (rest : List Str) :
    scanLines ⟨logs, c0, false⟩ (linesOfEntry e ++ rest) =
      scanLines ⟨logs ++ [readEntry e], some (readEntry e), false⟩ rest := by
  obtain ⟨hv, hne, hds, hstrip⟩ := he
  have hsh : linesOfEntry e ++ rest =
      (headerPre e ++ ((splitCh '\n' e.log).headI ++ ['\n'])) ::
        ((splitCh '\n' e.log).tail.map (fun l => l ++ ['\n']) ++
          ((sepLine ++ ['\n']) :: rest)) := by
    unfold linesOfEntry
    simp [List.append_assoc]
  rw [hsh,
    scanLines_ok_cons (scanLine_header e hv ((splitCh '\n' e.log).headI ++ ['\n']) hds logs c0) _,
    scanLines_cont (splitCh '\n' e.log).tail
      (fun l hl => hstrip l (List.tail_subset _ hl)) logs e.date
      ((splitCh '\n' e.log).headI ++ ['\n']) ((sepLine ++ ['\n']) :: rest)]
  have hbody : ((splitCh '\n' e.log).headI ++ ['\n']) ++ joinNl (splitCh '\n' e.log).tail =
      e.log ++ ['\n'] := by
    have h1 : splitCh '\n' e.log = (splitCh '\n' e.log).headI :: (splitCh '\n' e.log).tail := by
      cases h2 : splitCh '\n' e.log with
      | nil => exact absurd h2 (splitCh_ne_nil _ _)
      | cons a as => simp
    calc ((splitCh '\n' e.log).headI ++ ['\n']) ++ joinNl (splitCh '\n' e.log).tail
        = joinNl (splitCh '\n' e.log) := by
          conv_rhs => rw [h1]
          rw [joinNl_cons]
      _ = e.log ++ ['\n'] := joinNl_splitCh _
  rw [hbody,
    scanLines_ok_cons (scanLine_sep ⟨logs, some ⟨e.date, e.log ++ ['\n']⟩, true⟩) _]
  rfl

theorem scanLines_batch :
    ∀ b : List LogEntry, (∀ e ∈ b, GoodEntry e) →
      ∀ (logs : List LogEntry) (c0 : Option LogEntry) (rest : List Str),
        scanLines ⟨logs, c0, false⟩ ((b.map linesOfEntry).flatten ++ rest) =
          scanLines ⟨logs ++ b.map readEntry, lastCurr c0 b, false⟩ rest := by
  intro b
  induction b with
  | nil =>
    intro _ logs c0 rest
    simp [lastCurr]
  | cons e b ih =>
    intro hb logs c0 rest
    rw [List.map_cons, List.flatten_cons, List.append_assoc,
      scanLines_entry e (hb e (by simp)) logs c0 _,
      ih (fun x hx => hb x (by simp [hx])) _ _ _]
    have hlast : lastCurr (some (readEntry e)) b = lastCurr c0 (e :: b) := by
      cases b with
      | nil => simp [lastCurr]
      | cons y ys =>
        rw [lastCurr, lastCurr, List.getLast?_cons_cons]
        cases h : (y :: ys).getLast? with
        | none => exact absurd h (by simp)
        | some z => rfl
    have hlogs : (logs ++ [readEntry e]) ++ List.map readEntry b =
        logs ++ List.map readEntry (e :: b) := by
      simp
    rw [hlast, hlogs]

theorem splitLinesAux_serialize :
    ∀ (b : List LogEntry) (rest : Str),
      splitLinesAux (serializeBatch b ++ rest) [] =
        (b.map linesOfEntry).flatten ++ splitLinesAux rest [] := by
  intro b
  induction b with
  | nil => intro rest; simp [serializeBatch]
  | cons e b ih =>
    intro rest
    have h1 : serializeBatch (e :: b) ++ rest = write_log_text e ++ (serializeBatch b ++ rest) := by
      simp [serializeBatch, List.append_assoc]
    rw [h1, splitLinesAux_entry, ih]
    simp [List.append_assoc]

theorem splitLines_serialize (b : List LogEntry) :
    splitLines (serializeBatch b) = (b.map linesOfEntry).flatten := by
  have h := splitLinesAux_serialize b []
  rw [splitLines]
  simpa [splitLinesAux] using h

theorem parse_serialize (b : List LogEntry) (hb : ∀ e ∈ b, GoodEntry e) :
    parseText (serializeBatch b) = .ok (b.map readEntry) := by
  rw [parseText, splitLines_serialize b, parseLines]
  have h := scanLines_batch b hb [] none []
  rw [List.append_nil] at h
  rw [h]
  rfl

theorem serializeBatch_append (a b : List LogEntry) :
    serializeBatch (a ++ b) = serializeBatch a ++ serializeBatch b := by
  simp [serializeBatch]

theorem fsLookup_append_left {fs : FS} {n x : Str} (h : fsLookup fs n = some x) (l2 : FS) :
    fsLookup (fs ++ l2) n = some x := by
  induction fs with
  | nil => cases h
  | cons p rest ih =>
    obtain ⟨k, v⟩ := p
    by_cases hk : k = n
    · rw [fsLookup, if_pos hk] at h
      rw [List.cons_append, fsLookup, if_pos hk]
      exact h
    · rw [fsLookup, if_neg hk] at h
      rw [List.cons_append, fsLookup, if_neg hk]
      exact ih h

theorem fsLookup_append_right {fs : FS} {n : Str} (h : fsLookup fs n = none) (l2 : FS) :
    fsLookup (fs ++ l2) n = fsLookup l2 n := by
  induction fs with
  | nil => rfl
  | cons p rest ih =>
    obtain ⟨k, v⟩ := p
    by_cases hk : k = n
    · rw [fsLookup, if_pos hk] at h
      cases h
    · rw [fsLookup, if_neg hk] at h
      rw [List.cons_append, fsLookup, if_neg hk]
      exact ih h

theorem appendFile_absent {fs : FS} {name : Str} (h : fsLookup fs name = none) (data : Str) :
    appendFile fs name data = fs ++ [(name, data)] := by
  unfold appendFile
  rw [h]
  rfl

theorem appendFile_present {fs : FS} {name d : Str} (h : fsLookup fs name = some d) (data : Str) :
    appendFile fs name data = fs.map (fun p => if p.1 = name then (p.1, p.2 ++ data) else p) := by
  unfold appendFile
  rw [h]
  rfl

theorem fsLookup_map_upd {fs : FS} {name d : Str} (h : fsLookup fs name = some d) (data : Str) :
    fsLookup (fs.map (fun p => if p.1 = name then (p.1, p.2 ++ data) else p)) name =
      some (d ++ data) := by
  induction fs with
  | nil => cases h
  | cons p rest ih =>
    obtain ⟨k, v⟩ := p
    by_cases hk : k = name
    · subst hk
      rw [fsLookup, if_pos rfl] at h
      injection h with h
      subst h
      simp only [List.map_cons]
      rw [if_pos trivial, fsLookup, if_pos rfl]
    · rw [fsLookup, if_neg hk] at h
      simp only [List.map_cons]
      rw [if_neg hk, fsLookup, if_neg hk]
      exact ih h

theorem map_upd_of_absent {fs : FS} {name : Str} (h : fsLookup fs name = none) (data : Str) :
    fs.map (fun p => if p.1 = name then (p.1, p.2 ++ data) else p) = fs := by
  induction fs with
  | nil => rfl
  | cons p rest ih =>
    obtain ⟨k, v⟩ := p
    by_cases hk : k = name
    · rw [fsLookup, if_pos hk] at h
      cases h
    · rw [fsLookup, if_neg hk] at h
      simp [hk, ih h]

theorem map_upd_fst (fs : FS) (name data : Str) :
    (fs.map (fun p => if p.1 = name then (p.1, p.2 ++ data) else p)).map Prod.fst =
      fs.map Prod.fst := by
  induction fs with
  | nil => rfl
  | cons p rest ih =>
    obtain ⟨k, v⟩ := p
    by_cases hk : k = name
    · simp [hk, ih]
    · simp [hk, ih]

theorem writeAll_nil (fs : FS) (name : Str) : writeAll fs name [] = fs := rfl

theorem writeAll_cons (fs : FS) (name : Str) (e : LogEntry) (logs : List LogEntry) :
    writeAll fs name (e :: logs) = writeAll (write_log fs name e) name logs := rfl

theorem map_upd_nil (fs : FS) (name : Str) :
    fs.map (fun p => if p.1 = name then (p.1, p.2 ++ serializeBatch []) else p) = fs := by
  induction fs with
  | nil => rfl
  | cons p rest ih =>
    obtain ⟨k, v⟩ := p
    by_cases hk : k = name
    · simp [hk, serializeBatch, ih]
    · simp [hk, ih]

theorem writeAll_present :
    ∀ (logs : List LogEntry) (fs : FS) (name d : Str), fsLookup fs name = some d →
      writeAll fs name logs =
        fs.map (fun p => if p.1 = name then (p.1, p.2 ++ serializeBatch logs) else p) := by
  intro logs
  induction logs with
  | nil =>
    intro fs name d h
    rw [writeAll_nil, map_upd_nil]
  | cons e logs ih =>
    intro fs name d h
    rw [writeAll_cons, write_log, appendFile_present h,
      ih _ name (d ++ write_log_text e) (fsLookup_map_upd h _), List.map_map]
    refine List.map_congr_left ?_
    intro p _
    by_cases hp : p.1 = name
    · simp [Function.comp, hp, serializeBatch, List.append_assoc]
    · simp [Function.comp, hp]

theorem writeAll_absent (e : LogEntry) (logs : List LogEntry) (fs : FS) (name : Str)
    (h : fsLookup fs name = none) :
    writeAll fs name (e :: logs) = fs ++ [(name, serializeBatch (e :: logs))] := by
  rw [writeAll_cons, write_log, appendFile_absent h]
  have h2 : fsLookup (fs ++ [(name, write_log_text e)]) name = some (write_log_text e) := by
    rw [fsLookup_append_right h]
    simp [fsLookup]
  rw [writeAll_present logs _ name _ h2, List.map_append, map_upd_of_absent h]
  simp [fsLookup, serializeBatch]

theorem read_logs_found {fs : FS} {p content : Str} (hne : p ≠ [])
    (h : fsLookup fs p = some content) :
    read_logs fs (some p) = parseText content := by
  unfold read_logs
  dsimp only
  rw [if_neg hne, h]

theorem write_logs_at_capacity (C n : Nat) (fs : FS) (content : Str)
    (curr batch : List LogEntry)
    (hfs : fsLookup fs (logName n) = some content)
    (hread : parseText content = .ok curr)
    (hlen : C ≤ curr.length) :
    write_logs ⟨C, some (logName n)⟩ fs batch =
      .ok (⟨C, some (logName (n + 1))⟩, writeAll fs (logName (n + 1)) batch) := by
  have hr : read_logs fs (some (logName n)) = .ok curr := by
    rw [read_logs_found (by rw [logName_eq]; simp) hfs, hread]
  unfold write_logs
  simp only [hr, Bind.bind, Except.bind]
  rw [if_pos hlen]
  simp [generate_file_name_logName, Bind.bind, Except.bind]

theorem write_logs_below_capacity (C : Nat) (name : Str) (hname : name ≠ []) (fs : FS)
    (content : Str) (curr batch : List LogEntry)
    (hfs : fsLookup fs name = some content)
    (hread : parseText content = .ok curr)
    (hlen : curr.length < C) :
    write_logs ⟨C, some name⟩ fs batch = .ok (⟨C, some name⟩, writeAll fs name batch) := by
  have hr : read_logs fs (some name) = .ok curr := by
    rw [read_logs_found hname hfs, hread]
  unfold write_logs
  simp only [hr, Bind.bind, Except.bind]
  rw [if_neg (by omega)]

theorem lastCurr_ne_nil (c0 : Option LogEntry) (b : List LogEntry) (h : b ≠ []) :
    lastCurr c0 b = some (readEntry (b.getLast h)) := by
  rw [lastCurr, List.getLast?_eq_getLast b h]

/-- C1 (counterexample): the spec claims `Codec.parse(Codec.serialize(batch))`
equals the batch field-for-field.  `read_logs` keeps the trailing newline
of every scanned line in the body, so already a one-entry batch with body
`"a"` reads back with body `"a\n"`, not equal to the original. -/
theorem claim1_counterexample :
    parseText (serializeBatch [entry0]) ≠ .ok [entry0] := by decide

/-- C1 (amended): for every batch of entries with valid timestamps and
non-empty bodies whose first line does not contain `" - "` and none of
whose lines strips to the twenty-dash separator, deserializing the
serialization succeeds and yields the same timestamps (to the second) with
each body exactly the original body plus one trailing newline. -/
theorem claim1_roundtrip_amended (b : List LogEntry) (hb : ∀ e ∈ b, GoodEntry e) :
    parseText (serializeBatch b) = .ok (b.map readEntry) :=
  parse_serialize b hb

/-- C1 (witness): the amended round trip at a concrete one-entry batch. -/
theorem claim1_witness :
    (∀ e ∈ [entry0], GoodEntry e) ∧
      parseText (serializeBatch [entry0]) = .ok ([entry0].map readEntry) :=
  ⟨by decide, claim1_roundtrip_amended [entry0] (by decide)⟩

/-- C2: with the active segment `log_n.txt` parsing to at least `C`
entries, `write_logs` of a non-empty batch allocates `log_{n+1}.txt` via
the namer, writes exactly the serialized batch to that new, initially
absent segment, and leaves the old segment's content unchanged. -/
theorem claim2_rotation (C n : Nat) (fs : FS) (oldContent : Str)
    (curr batch : List LogEntry)
    (hfs : fsLookup fs (logName n) = some oldContent)
    (hread : parseText oldContent = .ok curr)
    (hlen : C ≤ curr.length)
    (hnew : fsLookup fs (logName (n + 1)) = none)
    (hbatch : batch ≠ []) :
    write_logs ⟨C, some (logName n)⟩ fs batch =
      .ok (⟨C, some (logName (n + 1))⟩, fs ++ [(logName (n + 1), serializeBatch batch)]) ∧
    fsLookup (fs ++ [(logName (n + 1), serializeBatch batch)]) (logName (n + 1)) =
      some (serializeBatch batch) ∧
    fsLookup (fs ++ [(logName (n + 1), serializeBatch batch)]) (logName n) =
      some oldContent := by
  obtain ⟨e, rest, rfl⟩ := List.exists_cons_of_ne_nil hbatch
  refine ⟨?_, ?_, fsLookup_append_left hfs _⟩
  · rw [write_logs_at_capacity C n fs oldContent curr _ hfs hread hlen,
      writeAll_absent e rest fs _ hnew]
  · rw [fsLookup_append_right hnew]
    simp [fsLookup]

/-- C2 (witness): rotation at a concrete full segment. -/
theorem claim2_witness :
    (fsLookup [(logName 1, serializeBatch [entry0])] (logName 1) =
        some (serializeBatch [entry0]) ∧
      parseText (serializeBatch [entry0]) = .ok [readEntry entry0] ∧
      1 ≤ ([readEntry entry0] : List LogEntry).length ∧
      fsLookup [(logName 1, serializeBatch [entry0])] (logName 2) = none) ∧
    write_logs ⟨1, some (logName 1)⟩ [(logName 1, serializeBatch [entry0])] [entry1] =
      .ok (⟨1, some (logName 2)⟩,
        [(logName 1, serializeBatch [entry0])] ++ [(logName 2, serializeBatch [entry1])]) :=
  ⟨⟨by decide, by decide, by decide, by decide⟩,
    (claim2_rotation 1 1 [(logName 1, serializeBatch [entry0])] (serializeBatch [entry0])
      [readEntry entry0] [entry1] (by decide) (by decide) (by decide) (by decide)
      (by decide)).1⟩

/-- C3 (counterexample): the spec claims a header line that fails the
timestamp pattern is skipped and the remaining well-formed entries are
still returned.  `read_logs` has no handler around `from_string`, so a
file starting with `[x] - y` aborts the whole read with `ValueError`
instead of returning the following good entry. -/
theorem claim3_counterexample :
    parseText ("[x] - y\n".toList ++ serializeBatch [entry0]) = .error .valueError ∧
    parseText ("[x] - y\n".toList ++ serializeBatch [entry0]) ≠ .ok [readEntry entry0] := by
  decide

/-- C3 (amended): outside an entry, a malformed line that does not begin
with `[` is discarded with no effect and the read continues; but a line
beginning with `[` whose header parse fails propagates its exception, and
the scanner loop turns any line error into failure of the whole read. -/
theorem claim3_amended :
    (∀ (st : ScanState) (l : Str), st.inside = false → pyStrip l ≠ sepLine →
        startsBracket l = false → scanLine st l = .ok st) ∧
    (∀ (st : ScanState) (l : Str) (err : PyErr), st.inside = false → pyStrip l ≠ sepLine →
        startsBracket l = true → from_string l = .error err → scanLine st l = .error err) ∧
    (∀ (st : ScanState) (l : Str) (ls : List Str) (err : PyErr),
        scanLine st l = .error err → scanLines st (l :: ls) = .error err) :=
  ⟨fun st l h1 h2 h3 => scanLine_skip st h1 l h2 h3,
   fun st l _ h1 h2 h3 h4 => scanLine_header_error st h1 l h2 h3 h4,
   fun _ _ ls _ h => scanLines_error_cons h ls⟩

/-- C3 (witness): both amended behaviors at concrete lines. -/
theorem claim3_witness :
    scanLine ⟨[], none, false⟩ "hello\n".toList = .ok ⟨[], none, false⟩ ∧
    scanLine ⟨[], none, false⟩ "[x] - y\n".toList = .error .valueError ∧
    scanLines ⟨[], none, false⟩ ["[x] - y\n".toList] = .error .valueError :=
  ⟨claim3_amended.1 ⟨[], none, false⟩ _ rfl (by decide) (by decide),
   claim3_amended.2.1 ⟨[], none, false⟩ _ .valueError rfl (by decide) (by decide) (by decide),
   claim3_amended.2.2 ⟨[], none, false⟩ _ [] .valueError
     (claim3_amended.2.1 ⟨[], none, false⟩ _ .valueError rfl (by decide) (by decide)
       (by decide))⟩

/-- C4 (counterexample): the spec claims that serializing `B`, removing
the final separator line and parsing yields exactly `B[:-1]`.  The bodies
read back with an extra trailing newline, so on a two-entry batch the
result differs from `B[:-1]`. -/
theorem claim4_counterexample :
    parseText (dropFinalSepLine (serializeBatch [entry0, entry1])) ≠
      .ok ([entry0, entry1].dropLast) := by decide

/-- C4 (amended): removing the final separator line and parsing yields the
entries of `B[:-1]` read back with one trailing newline added to each
body; the dangling last entry is dropped, and no error is raised. -/
theorem claim4_truncation_amended (b : List LogEntry) (hb : ∀ e ∈ b, GoodEntry e)
    (hne : b ≠ []) :
    parseText (dropFinalSepLine (serializeBatch b)) = .ok (b.dropLast.map readEntry) := by
  set el := b.getLast hne with hel
  have hgl : GoodEntry el := hb el (List.getLast_mem hne)
  obtain ⟨hv, hlne, hds, hstrip⟩ := hgl
  have hsplit : b.dropLast ++ [el] = b := List.dropLast_append_getLast hne
  have h1 : serializeBatch b =
      (serializeBatch b.dropLast ++ (to_string el ++ ['\n'])) ++ (sepLine ++ ['\n']) := by
    conv_lhs => rw [← hsplit]
    rw [serializeBatch_append]
    simp [serializeBatch, write_log_text, List.append_assoc]
  have h2 : dropFinalSepLine (serializeBatch b) =
      serializeBatch b.dropLast ++ (to_string el ++ ['\n']) := by
    rw [h1, dropFinalSepLine]
    have h3 : ((serializeBatch b.dropLast ++ (to_string el ++ ['\n'])) ++
        (sepLine ++ ['\n'])).length - 21 =
        (serializeBatch b.dropLast ++ (to_string el ++ ['\n'])).length := by
      rw [List.length_append, length_sepNl]
      omega
    rw [h3, List.take_left]
  rw [h2, parseText, splitLines, splitLinesAux_serialize b.dropLast _]
  have h4 : splitLinesAux (to_string el ++ ['\n']) [] =
      (headerPre el ++ ((splitCh '\n' el.log).headI ++ ['\n'])) ::
        ((splitCh '\n' el.log).tail.map (fun l => l ++ ['\n']) ++ ([] : List Str)) := by
    have hsh : to_string el ++ ['\n'] =
        (headerPre el ++ joinSep (splitCh '\n' el.log) '\n') ++ '\n' :: ([] : Str) := by
      rw [to_string_eq]
      conv_lhs =>
        rw [show el.log = joinSep (splitCh '\n' el.log) '\n' from (joinSep_splitCh _ _).symm]
    rw [hsh, splitLinesAux_hdr _ (nl_not_mem_headerPre _) _ (splitCh_ne_nil _ _)
      (fun l hl => nl_not_mem_splitCh hl) _]
    simp [splitLinesAux, List.append_assoc]
  rw [h4, parseLines,
    scanLines_batch b.dropLast (fun x hx => hb x (List.dropLast_subset b hx)) [] none _,
    scanLines_ok_cons (scanLine_header el hv ((splitCh '\n' el.log).headI ++ ['\n']) hds _ _) _,
    scanLines_cont (splitCh '\n' el.log).tail (fun l hl => hstrip l (List.tail_subset _ hl))
      _ _ _ []]
  rfl

/-- C4 (witness): amended truncation behavior at a concrete batch. -/
theorem claim4_witness :
    (∀ e ∈ [entry0, entry1], GoodEntry e) ∧ ([entry0, entry1] : List LogEntry) ≠ [] ∧
    parseText (dropFinalSepLine (serializeBatch [entry0, entry1])) =
      .ok ([entry0, entry1].dropLast.map readEntry) :=
  ⟨by decide, by decide, claim4_truncation_amended [entry0, entry1] (by decide) (by decide)⟩

/-- C5 (counterexample): the spec claims an extra separator line at a
position where the scanner is outside an entry never changes the parsed
batch.  After a serialized one-entry batch the scanner is outside
(`inside = false`), yet appending one more separator there duplicates the
entry, because `curr_log` is never cleared after an entry is emitted. -/
theorem claim5_counterexample :
    scanLines ⟨[], none, false⟩ (splitLines (serializeBatch [entry0])) =
      .ok ⟨[readEntry entry0], some (readEntry entry0), false⟩ ∧
    parseText (serializeBatch [entry0] ++ (sepLine ++ ['\n'])) ≠
      parseText (serializeBatch [entry0]) := by decide

/-- C5 (amended): an extra separator line while outside is a no-op only
while no entry object is pending (for instance at the start of input);
once an entry has been completed, an extra separator appends a duplicate
of the most recently parsed entry to the batch. -/
theorem claim5_extra_sep_amended :
    (∀ t : Str, parseText ((sepLine ++ ['\n']) ++ t) = parseText t) ∧
    (∀ (b : List LogEntry), (∀ e ∈ b, GoodEntry e) → ∀ hne : b ≠ [],
        parseText (serializeBatch b ++ (sepLine ++ ['\n'])) =
          .ok (b.map readEntry ++ [readEntry (b.getLast hne)])) := by
  constructor
  · intro t
    have h1 : (sepLine ++ ['\n']) ++ t = sepLine ++ '\n' :: t := by simp
    rw [parseText, h1, splitLines, splitLinesAux_append (by decide : '\n' ∉ sepLine)]
    simp only [List.reverse_nil, List.nil_append]
    rw [parseLines, scanLines_ok_cons (scanLine_sep ⟨[], none, false⟩) _]
    rfl
  · intro b hb hne
    rw [parseText, splitLines, splitLinesAux_serialize b _, parseLines]
    have h2 : splitLinesAux (sepLine ++ ['\n']) [] = [sepLine ++ ['\n']] := by
      have h3 : (sepLine ++ ['\n'] : Str) = sepLine ++ '\n' :: ([] : Str) := by simp
      rw [h3, splitLinesAux_append (by decide : '\n' ∉ sepLine)]
      simp [splitLinesAux]
    rw [h2, scanLines_batch b hb [] none _, scanLines_ok_cons (scanLine_sep _) _,
      lastCurr_ne_nil none b hne]
    rfl

/-- C5 (witness): both amended behaviors at concrete inputs. -/
theorem claim5_witness :
    parseText ((sepLine ++ ['\n']) ++ serializeBatch [entry0]) =
      parseText (serializeBatch [entry0]) ∧
    parseText (serializeBatch [entry0] ++ (sepLine ++ ['\n'])) =
      .ok ([entry0].map readEntry ++ [readEntry ([entry0].getLast (by decide))]) :=
  ⟨claim5_extra_sep_amended.1 _,
   claim5_extra_sep_amended.2 [entry0] (by decide) (by decide)⟩

/-- C6: with capacity `C` and the active segment holding `C − 1` entries,
`write_logs` of a single entry appends to that same segment: the file
listing is unchanged (no new segment), the segment's content becomes the
serialization of the extended batch, and it then parses to `C` entries. -/
theorem claim6_below_capacity (C : Nat) (name : Str) (hname : name ≠ []) (fs : FS)
    (b0 : List LogEntry) (e : LogEntry)
    (hgood : ∀ x ∈ b0, GoodEntry x) (hge : GoodEntry e)
    (hfs : fsLookup fs name = some (serializeBatch b0))
    (hlen : b0.length + 1 = C) :
    write_logs ⟨C, some name⟩ fs [e] =
      .ok (⟨C, some name⟩,
        fs.map (fun p => if p.1 = name then (p.1, p.2 ++ serializeBatch [e]) else p)) ∧
    fsLookup (fs.map (fun p => if p.1 = name then (p.1, p.2 ++ serializeBatch [e]) else p))
        name = some (serializeBatch (b0 ++ [e])) ∧
    (fs.map (fun p => if p.1 = name then (p.1, p.2 ++ serializeBatch [e]) else p)).map
        Prod.fst = fs.map Prod.fst ∧
    parseText (serializeBatch (b0 ++ [e])) = .ok ((b0 ++ [e]).map readEntry) ∧
    ((b0 ++ [e]).map readEntry).length = C := by
  have hread : parseText (serializeBatch b0) = .ok (b0.map readEntry) :=
    parse_serialize b0 hgood
  have hcur : (b0.map readEntry).length < C := by
    rw [List.length_map]
    omega
  refine ⟨?_, ?_, map_upd_fst fs name _, ?_, ?_⟩
  · rw [write_logs_below_capacity C name hname fs _ _ [e] hfs hread hcur,
      writeAll_present [e] fs name _ hfs]
  · rw [fsLookup_map_upd hfs _, ← serializeBatch_append]
  · refine parse_serialize _ ?_
    intro x hx
    rcases List.mem_append.mp hx with hx | hx
    · exact hgood x hx
    · rw [List.mem_singleton.mp hx]
      exact hge
  · rw [List.length_map, List.length_append]
    simpa using hlen

/-- C6 (witness): appending below capacity at a concrete segment. -/
theorem claim6_witness :
    (logName 1 ≠ [] ∧
      fsLookup [(logName 1, serializeBatch [entry0])] (logName 1) =
        some (serializeBatch [entry0]) ∧
      ([entry0] : List LogEntry).length + 1 = 2) ∧
    write_logs ⟨2, some (logName 1)⟩ [(logName 1, serializeBatch [entry0])] [entry1] =
      .ok (⟨2, some (logName 1)⟩,
        [(logName 1, serializeBatch [entry0])].map
          (fun p => if p.1 = logName 1 then (p.1, p.2 ++ serializeBatch [entry1]) else p)) :=
  ⟨⟨by decide, by decide, by decide⟩,
    (claim6_below_capacity 2 (logName 1) (by decide) _ [entry0] entry1 (by decide)
      (by decide) (by decide) (by decide)).1⟩

/-- C7: the length guard of `LogVector.split` raises `SplitError` exactly
when the vector has at most `n` entries, as the claim states; but with
more than `n` entries the code executes `list(self.logs.items())` on a
Python `list`, which raises `AttributeError` instead of returning the
prefix and suffix promised by the claim and by the function's docstring. -/
theorem claim7_split_bug (v : List LogEntry) (n : Nat) :
    (v.length ≤ n → LogVector.split v n = .error .splitError) ∧
    (n < v.length → LogVector.split v n = .error .attributeError) := by
  constructor
  · intro h
    unfold LogVector.split
    rw [if_pos h]
  · intro h
    unfold LogVector.split
    rw [if_neg (by omega)]
    rfl

/-- C7 (witness): both branches at concrete vectors. -/
theorem claim7_witness :
    LogVector.split [entry0] 1 = .error .splitError ∧
    LogVector.split [entry0, entry1] 1 = .error .attributeError :=
  ⟨(claim7_split_bug [entry0] 1).1 (by decide),
   (claim7_split_bug [entry0, entry1] 1).2 (by decide)⟩

/-- C8: `read_logs` returns the empty batch, not an error, when the
segment name is absent (`None`) or no file of that name exists in the
project directory. -/
theorem claim8_missing_read :
    (∀ fs : FS, read_logs fs none = .ok []) ∧
    (∀ (fs : FS) (p : Str), fsLookup fs p = none → read_logs fs (some p) = .ok []) := by
  refine ⟨fun fs => rfl, fun fs p h => ?_⟩
  unfold read_logs
  dsimp only
  by_cases hp : p = []
  · rw [if_pos hp]
  · rw [if_neg hp, h]

/-- C8 (witness): reading a missing segment from an empty project. -/
theorem claim8_witness :
    fsLookup ([] : FS) (logName 1) = none ∧ read_logs [] (some (logName 1)) = .ok [] :=
  ⟨by decide, claim8_missing_read.2 [] (logName 1) (by decide)⟩

/-- C9: `generate_file_name` returns `log_1.txt` when there is no current
segment, and otherwise parses the numeric suffix of the current name and
returns the name with that suffix incremented by one (caching it). -/
theorem claim9_namer (lim n : Nat) :
    generate_file_name ⟨lim, none⟩ = .ok (logName 1, ⟨lim, some (logName 1)⟩) ∧
    generate_file_name ⟨lim, some (logName n)⟩ =
      .ok (logName (n + 1), ⟨lim, some (logName (n + 1))⟩) :=
  ⟨generate_file_name_none lim, generate_file_name_logName lim n⟩

/-- C10: a header line whose timestamp is well-formed but whose body first
line contains `" - "` makes `split(" - ")` return three parts, so the
two-element tuple unpacking in `from_string` raises `ValueError`; reading
a file containing such an entry fails entirely, hence bodies with `" - "`
in their first line cannot be read back. -/
theorem claim10_dash_in_body :
    ValidDT entryDash.date ∧
    strptime (dtToString entryDash.date) = .ok entryDash.date ∧
    from_string (to_string entryDash ++ ['\n']) = .error .valueError ∧
    parseText (serializeBatch [entryDash]) = .error .valueError := by decide

end Theorems

end RecallVault
